import Mathlib

/-!
# Verification of the Token-Multi-sender batch submission engine

Shallow embedding of the batch submission engine found in
`scripts/multisend.mjs` (the second script inside
`src/scripts/convert_csvjson_to_csv.mjs`) and of the UI event handler in
`src/frontend/src/App.tsx`, together with proofs of the specification
claims about them.

External collaborators (the ethers library, the RPC endpoint, the
filesystem) are modelled as oracle functions bundled in a `World`
structure; the engine itself is translated function by function from the
source.
-/

set_option autoImplicit false

namespace Multisend

/-- A raw `{ address, amountStr }` record as produced by `loadRecipients`. -/
structure RawEntry where
  address : String
  amountStr : String
deriving DecidableEq, Repr

/-- A validated entry `{ address, amountStr, amt }` as pushed into
`validEntries` by the validation loop of `main`. -/
structure ValidEntry where
  address : String
  amountStr : String
  amt : Int
deriving DecidableEq, Repr

/-- `makeKey` from the script: the string `address|amountStr`. -/
def makeKey (address amountStr : String) : String :=
  address ++ "|" ++ amountStr

/-! ## The chunk partitioning function

`function chunk(array, size)` of the script; the UI's inline `chunk`
in `onSend` is the same algorithm.  The JavaScript loop
`for (let i = 0; i < array.length; i += size)` never terminates when
`size = 0` and the array is non-empty; the extra `size = 0` branch below
is unreachable for the sizes the program uses (`Math.max(1, safe)`). -/

def chunk {α : Type} (array : List α) (size : Nat) : List (List α) :=
  match array with
  | [] => []
  | x :: rest =>
    if size = 0 then []
    else (x :: rest).take size :: chunk ((x :: rest).drop size) size
termination_by array.length
decreasing_by
  simp only [List.length_drop, List.length_cons]
  omega

theorem chunk_nil {α : Type} (size : Nat) : chunk ([] : List α) size = [] := by
  rw [chunk]

theorem chunk_size_zero {α : Type} (l : List α) : chunk l 0 = [] := by
  match l with
  | [] => rw [chunk]
  | x :: rest =>
    rw [chunk]
    simp

theorem chunk_cons_of_ne {α : Type} (array : List α) (size : Nat)
    (h1 : array ≠ []) (h2 : size ≠ 0) :
    chunk array size = array.take size :: chunk (array.drop size) size := by
  match array with
  | [] => exact absurd rfl h1
  | x :: rest =>
    rw [chunk]
    simp [h2]

theorem chunk_join_aux {α : Type} (s : Nat) (hs : 1 ≤ s) :
    ∀ (n : Nat) (l : List α), l.length ≤ n → (chunk l s).flatten = l := by
  intro n
  induction n with
  | zero =>
    intro l hl
    have hnil : l = [] := List.length_eq_zero.mp (Nat.le_zero.mp hl)
    subst hnil
    rw [chunk_nil]
    rfl
  | succ n ih =>
    intro l hl
    by_cases h : l = []
    · subst h
      rw [chunk_nil]
      rfl
    · rw [chunk_cons_of_ne l s h (by omega)]
      have hpos : 0 < l.length := List.length_pos.mpr h
      have hdrop : (l.drop s).length ≤ n := by
        simp only [List.length_drop]
        omega
      rw [List.flatten_cons, ih (l.drop s) hdrop]
      exact List.take_append_drop s l

theorem chunk_length_aux {α : Type} (s : Nat) :
    ∀ (n : Nat) (l : List α), l.length ≤ n → ∀ c ∈ chunk l s, c.length ≤ s := by
  intro n
  induction n with
  | zero =>
    intro l hl
    have hnil : l = [] := List.length_eq_zero.mp (Nat.le_zero.mp hl)
    subst hnil
    rw [chunk_nil]
    intro c hc
    cases hc
  | succ n ih =>
    intro l hl
    by_cases h : l = []
    · subst h
      rw [chunk_nil]
      intro c hc
      cases hc
    · by_cases hsz : s = 0
      · subst hsz
        rw [chunk_size_zero]
        intro c hc
        cases hc
      · rw [chunk_cons_of_ne l s h hsz]
        intro c hc
        rcases List.mem_cons.mp hc with hc | hc
        · subst hc
          simp only [List.length_take]
          omega
        · have hpos : 0 < l.length := List.length_pos.mpr h
          have hdrop : (l.drop s).length ≤ n := by
            simp only [List.length_drop]
            omega
          exact ih (l.drop s) hdrop c hc

/-- C2: for every entry list and every chunk size `s ≥ 1`, `chunk`
returns an ordered sequence of sub-lists whose concatenation equals the
input list exactly (every element covered exactly once, original
relative order preserved) and in which every sub-list has length at
most `s`. -/
theorem chunk_partition {α : Type} (l : List α) (s : Nat) (hs : 1 ≤ s) :
    (chunk l s).flatten = l ∧ ∀ c ∈ chunk l s, c.length ≤ s :=
  ⟨chunk_join_aux s hs l.length l le_rfl,
   chunk_length_aux s l.length l le_rfl⟩

/-- Witness for C2 at a concrete input. -/
theorem chunk_partition_witness :
    (chunk [10, 20, 30, 40, 50] 2).flatten = [10, 20, 30, 40, 50] ∧
      ∀ c ∈ chunk [10, 20, 30, 40, 50] 2, c.length ≤ 2 :=
  chunk_partition [10, 20, 30, 40, 50] 2 (by omega)

/-! ## The Paced Retry Executor

`callWithRetry(fn, label)` of the script.  The pacing delays and the
backoff arithmetic do not affect which value the call returns, so the
embedding records only the control flow: the operation is an oracle
`fn : Nat → Except E A` giving the outcome of the invocation made when
the attempt counter is `attempt` (the JavaScript loop enters with
`attempt = 0` and increments after every failure).  `isRL` is
`isRateLimitError`; as in the source it is consulted but both branches
re-raise at the same attempt ceiling. -/

def callWithRetryGo {E A : Type} (fn : Nat → Except E A) (isRL : E → Bool)
    (maxAttempts : Nat) (attempt : Nat) : Except E A :=
  match fn attempt with
  | Except.ok a => Except.ok a
  | Except.error e =>
    if ¬ isRL e = true ∧ attempt + 1 ≥ maxAttempts then Except.error e
    else if _h2 : attempt + 1 ≥ maxAttempts then Except.error e
    else callWithRetryGo fn isRL maxAttempts (attempt + 1)
termination_by maxAttempts - attempt
decreasing_by omega

def callWithRetry {E A : Type} (fn : Nat → Except E A) (isRL : E → Bool)
    (maxAttempts : Nat) : Except E A :=
  callWithRetryGo fn isRL maxAttempts 0

theorem callWithRetryGo_ok {E A : Type} (fn : Nat → Except E A) (isRL : E → Bool)
    (N : Nat) (a : A) :
    ∀ (k attempt : Nat), N - 1 - attempt = k → attempt ≤ N - 1 →
      (∀ i, attempt ≤ i → i < N - 1 → ∃ e, fn i = Except.error e) →
      fn (N - 1) = Except.ok a →
      callWithRetryGo fn isRL N attempt = Except.ok a := by
  intro k
  induction k with
  | zero =>
    intro attempt hk hle hfail hok
    have heq : attempt = N - 1 := by omega
    subst heq
    rw [callWithRetryGo, hok]
  | succ k ih =>
    intro attempt hk hle hfail hok
    have hlt : attempt < N - 1 := by omega
    obtain ⟨e, he⟩ := hfail attempt le_rfl hlt
    rw [callWithRetryGo, he]
    have hceil : ¬ (attempt + 1 ≥ N) := by omega
    simp only [hceil, and_false, if_false, dif_neg hceil]
    exact ih (attempt + 1) (by omega) (by omega)
      (fun i h1 h2 => hfail i (by omega) h2) hok

theorem callWithRetryGo_allFail {E A : Type} (fn : Nat → Except E A) (isRL : E → Bool)
    (N : Nat) (e : E) :
    ∀ (k attempt : Nat), N - 1 - attempt = k → attempt ≤ N - 1 →
      (∀ i, attempt ≤ i → i < N → ∃ e', fn i = Except.error e') →
      fn (N - 1) = Except.error e →
      callWithRetryGo fn isRL N attempt = Except.error e := by
  intro k
  induction k with
  | zero =>
    intro attempt hk hle hfail hlast
    have heq : attempt = N - 1 := by omega
    subst heq
    rw [callWithRetryGo, hlast]
    have hceil : N - 1 + 1 ≥ N := by omega
    by_cases hrl : isRL e = true
    · simp [hrl, hceil]
    · simp [hrl, hceil]
  | succ k ih =>
    intro attempt hk hle hfail hlast
    have hlt : attempt < N - 1 := by omega
    obtain ⟨e', he'⟩ := hfail attempt le_rfl (by omega)
    rw [callWithRetryGo, he']
    have hceil : ¬ (attempt + 1 ≥ N) := by omega
    simp only [hceil, and_false, if_false, dif_neg hceil]
    exact ih (attempt + 1) (by omega) (by omega)
      (fun i h1 h2 => hfail i (by omega) h2) hlast

/-- C1: for every remote operation wrapped by `callWithRetry` with
attempt ceiling `RETRY_MAX_ATTEMPTS = N ≥ 1`: if the operation fails on
each of its first `N - 1` invocations and succeeds on the `N`-th, the
wrapped call returns that success; if it fails on all `N` invocations,
the wrapper re-raises the final underlying error unchanged, with no
wrapping. -/
theorem retry_executor_spec {E A : Type} (fn : Nat → Except E A) (isRL : E → Bool)
    (N : Nat) (hN : 1 ≤ N) :
    (∀ a : A, (∀ i, i < N - 1 → ∃ e, fn i = Except.error e) →
        fn (N - 1) = Except.ok a → callWithRetry fn isRL N = Except.ok a) ∧
    (∀ e : E, (∀ i, i < N → ∃ e', fn i = Except.error e') →
        fn (N - 1) = Except.error e → callWithRetry fn isRL N = Except.error e) := by
  constructor
  · intro a hfail hok
    exact callWithRetryGo_ok fn isRL N a (N - 1 - 0) 0 rfl (by omega)
      (fun i _ h2 => hfail i h2) hok
  · intro e hfail hlast
    exact callWithRetryGo_allFail fn isRL N e (N - 1 - 0) 0 rfl (by omega)
      (fun i _ h2 => hfail i h2) hlast

/-- Witness for C1 at a concrete input: with ceiling 2, an operation
failing on its first invocation and succeeding on the second returns
the success. -/
theorem retry_executor_spec_witness :
    callWithRetry (fun i => if i = 0 then Except.error "boom" else Except.ok 7)
      (fun _ => false) 2 = Except.ok 7 := by
  refine (retry_executor_spec
      (fun i => if i = 0 then Except.error "boom" else Except.ok (7 : Nat))
      (fun _ => false) 2 (by omega)).1 7 ?_ ?_
  · intro i hi
    have : i = 0 := by omega
    subst this
    exact ⟨"boom", rfl⟩
  · rfl

/-! ## The Capacity Prober

`main` lines 381-412 of the script: the doubling exploration followed by
a binary refinement; `estimateChunkSize` in `App.tsx` is the same
algorithm (its `maxTry` default is also `Math.min(recips.length, 512)`).
`estimateForCount` catches estimator failures and returns `null`, so the
estimator is an oracle `est : Nat → Option Int`. -/

/-- JavaScript truthiness plus the budget test: in the binary search the
source reads `if (est && est < gasBudget)`; a `null` estimate and the
BigInt `0n` are both falsy.  The doubling-loop condition
`if (!est || est >= gasBudget)` is the exact negation. -/
def estGood (budget : Int) : Option Int → Bool
  | none => false
  | some v => !(v == 0) && decide (v < budget)

/-- The doubling exploration `for (let test = 1; test <= high; test *= 2)`.
State: `test` is the loop counter, `low`/`safe` the mutable variables,
`high0` the value of `high` at loop entry (`high` is only reassigned
immediately before a `break`, so the loop bound never changes while the
loop runs), `probes` accumulates the estimate calls made so far.
Returns the final `(low, high, safe)` together with all probed counts. -/
def doubleLoop (est : Nat → Option Int) (budget : Int) (high0 : Nat)
    (test low safe : Nat) (probes : List Nat) (ht : 1 ≤ test) :
    Nat × Nat × Nat × List Nat :=
  if h : test ≤ high0 then
    if estGood budget (est test) then
      if test = high0 then (test, high0, test, probes ++ [test])
      else doubleLoop est budget high0 (test * 2) test test (probes ++ [test]) (by omega)
    else (low, test, safe, probes ++ [test])
  else (low, high0, safe, probes)
termination_by high0 + 1 - test
decreasing_by omega

/-- The binary refinement `while (low + 1 < high)`. -/
def binLoop (est : Nat → Option Int) (budget : Int)
    (low high safe : Nat) (probes : List Nat) : Nat × List Nat :=
  if low + 1 < high then
    if estGood budget (est ((low + high) / 2)) then
      binLoop est budget ((low + high) / 2) high ((low + high) / 2)
        (probes ++ [(low + high) / 2])
    else
      binLoop est budget low ((low + high) / 2) safe (probes ++ [(low + high) / 2])
  else (safe, probes)
termination_by high - low
decreasing_by
  · omega
  · omega

/-- Lines 381-411 of the script: `low = 1`, `high = min(length, 512)`,
`safe = 1`, doubling then binary search, result `Math.max(1, safe)`.
Also returns the ordered list of probed counts (the estimate calls). -/
def findChunkSize (est : Nat → Option Int) (budget : Int) (len : Nat) : Nat × List Nat :=
  let r := doubleLoop est budget (min len 512) 1 1 1 [] (by omega)
  let b := binLoop est budget r.1 r.2.1 r.2.2.1 r.2.2.2
  (max 1 b.1, b.2)

theorem doubleLoop_bounds (est : Nat → Option Int) (budget : Int) (high0 : Nat) :
    ∀ (fuel test low safe : Nat) (probes : List Nat) (ht : 1 ≤ test),
      high0 + 1 - test ≤ fuel → low ≤ high0 → safe ≤ high0 →
      (doubleLoop est budget high0 test low safe probes ht).1 ≤ high0 ∧
      (doubleLoop est budget high0 test low safe probes ht).2.1 ≤ high0 ∧
      (doubleLoop est budget high0 test low safe probes ht).2.2.1 ≤ high0 := by
  intro fuel
  induction fuel with
  | zero =>
    intro test low safe probes ht hf hlow hsafe
    have htest : ¬ test ≤ high0 := by omega
    rw [doubleLoop]
    simp only [dif_neg htest]
    exact ⟨hlow, le_rfl, hsafe⟩
  | succ fuel ih =>
    intro test low safe probes ht hf hlow hsafe
    rw [doubleLoop]
    by_cases htest : test ≤ high0
    · simp only [dif_pos htest]
      by_cases hgood : estGood budget (est test) = true
      · simp only [if_pos hgood]
        by_cases heq : test = high0
        · simp only [if_pos heq]
          exact ⟨htest, le_rfl, htest⟩
        · simp only [if_neg heq]
          exact ih (test * 2) test test (probes ++ [test]) (by omega)
            (by omega) htest htest
      · simp only [if_neg hgood]
        exact ⟨hlow, htest, hsafe⟩
    · simp only [dif_neg htest]
      exact ⟨hlow, le_rfl, hsafe⟩

theorem binLoop_safe_le (est : Nat → Option Int) (budget : Int) (B : Nat) :
    ∀ (fuel low high safe : Nat) (probes : List Nat),
      high - low ≤ fuel → high ≤ B → safe ≤ B →
      (binLoop est budget low high safe probes).1 ≤ B := by
  intro fuel
  induction fuel with
  | zero =>
    intro low high safe probes hf hhigh hsafe
    have hlt : ¬ low + 1 < high := by omega
    rw [binLoop]
    simp only [if_neg hlt]
    exact hsafe
  | succ fuel ih =>
    intro low high safe probes hf hhigh hsafe
    rw [binLoop]
    by_cases hlt : low + 1 < high
    · simp only [if_pos hlt]
      have hmid₁ : low < (low + high) / 2 := by omega
      have hmid₂ : (low + high) / 2 < high := by omega
      by_cases hgood : estGood budget (est ((low + high) / 2)) = true
      · simp only [if_pos hgood]
        exact ih ((low + high) / 2) high ((low + high) / 2) _
          (by omega) hhigh (by omega)
      · simp only [if_neg hgood]
        exact ih low ((low + high) / 2) safe _ (by omega) (by omega) hsafe
    · simp only [if_neg hlt]
      exact hsafe

/-- C4: for every non-empty working set and every behaviour of the
external cost estimator (including estimates that are unavailable or
at/above the budget for every probed size), the Capacity Prober's
output chunk size is at least 1 and at most the working-set size. -/
theorem prober_bounds (est : Nat → Option Int) (budget : Int) (len : Nat)
    (hlen : 1 ≤ len) :
    1 ≤ (findChunkSize est budget len).1 ∧ (findChunkSize est budget len).1 ≤ len := by
  have hhigh0 : 1 ≤ min len 512 := by omega
  obtain ⟨h1, h2, h3⟩ := doubleLoop_bounds est budget (min len 512)
    (min len 512 + 1 - 1) 1 1 1 [] (by omega) le_rfl hhigh0 hhigh0
  have hb := binLoop_safe_le est budget (min len 512)
    ((doubleLoop est budget (min len 512) 1 1 1 [] (by omega)).2.1 -
      (doubleLoop est budget (min len 512) 1 1 1 [] (by omega)).1)
    (doubleLoop est budget (min len 512) 1 1 1 [] (by omega)).1
    (doubleLoop est budget (min len 512) 1 1 1 [] (by omega)).2.1
    (doubleLoop est budget (min len 512) 1 1 1 [] (by omega)).2.2.1
    (doubleLoop est budget (min len 512) 1 1 1 [] (by omega)).2.2.2
    le_rfl h2 h3
  simp only [findChunkSize]
  constructor
  · exact Nat.le_max_left 1 _
  · exact max_le hlen (le_trans hb (Nat.min_le_left len 512))

/-- Witness for C4 at a concrete input: an estimator that always fails,
budget 100, working-set size 3. -/
theorem prober_bounds_witness :
    1 ≤ (findChunkSize (fun _ => none) 100 3).1 ∧
      (findChunkSize (fun _ => none) 100 3).1 ≤ 3 :=
  prober_bounds (fun _ => none) 100 3 (by omega)

theorem chunk_one {α : Type} : ∀ l : List α, chunk l 1 = l.map (fun a => [a])
  | [] => by rw [chunk_nil]; rfl
  | x :: rest => by
    rw [chunk_cons_of_ne (x :: rest) 1 (by simp) (by omega)]
    simp only [List.take_succ_cons, List.take_zero, List.drop_succ_cons, List.drop_zero,
      List.map_cons]
    rw [chunk_one rest]

theorem findChunkSize_unavailable (est : Nat → Option Int) (budget : Int) (len : Nat)
    (h2 : ∀ n, 2 ≤ n → est n = none) :
    (findChunkSize est budget len).1 = 1 := by
  simp only [findChunkSize]
  suffices h : (binLoop est budget
      (doubleLoop est budget (min len 512) 1 1 1 [] (by omega)).1
      (doubleLoop est budget (min len 512) 1 1 1 [] (by omega)).2.1
      (doubleLoop est budget (min len 512) 1 1 1 [] (by omega)).2.2.1
      (doubleLoop est budget (min len 512) 1 1 1 [] (by omega)).2.2.2).1 = 1 by
    rw [h]
    rfl
  by_cases h0 : 1 ≤ min len 512
  · by_cases hgood : estGood budget (est 1) = true
    · by_cases h1 : (1 : Nat) = min len 512
      · have hd : doubleLoop est budget (min len 512) 1 1 1 [] (by omega) =
            (1, min len 512, 1, [1]) := by
          rw [doubleLoop]
          simp [h0, hgood, h1]
        rw [hd, binLoop]
        have hc : ¬ (1 + 1 < min len 512) := by omega
        simp [hc]
      · have hd : doubleLoop est budget (min len 512) 1 1 1 [] (by omega) =
            (1, 2, 1, [1, 2]) := by
          rw [doubleLoop]
          simp only [dif_pos h0, if_pos hgood, if_neg h1]
          rw [doubleLoop]
          have h2le : 2 ≤ min len 512 := by omega
          have hnone : est (1 * 2) = none := h2 2 le_rfl
          simp [h2le, estGood, hnone]
        rw [hd, binLoop]
        simp
    · have hd : doubleLoop est budget (min len 512) 1 1 1 [] (by omega) =
          (1, 1, 1, [1]) := by
        rw [doubleLoop]
        simp [h0, hgood]
      rw [hd, binLoop]
      simp
  · have hd : doubleLoop est budget (min len 512) 1 1 1 [] (by omega) =
        (1, min len 512, 1, []) := by
      rw [doubleLoop]
      simp [h0]
    rw [hd, binLoop]
    have hc : ¬ (1 + 1 < min len 512) := by omega
    simp [hc]

/-- C8: if the cost estimate is unavailable (estimator fails) for every
probed size greater than or equal to 2, the Capacity Prober resolves the
safe chunk size to exactly 1, and with chunk size 1 the run proceeds
submitting one entry per chunk (every chunk is a singleton) rather than
refusing to run. -/
theorem prober_unavailable_resolves_to_one (est : Nat → Option Int) (budget : Int)
    (len : Nat) (h2 : ∀ n, 2 ≤ n → est n = none) :
    (findChunkSize est budget len).1 = 1 ∧
      ∀ l : List ValidEntry, chunk l 1 = l.map (fun e => [e]) :=
  ⟨findChunkSize_unavailable est budget len h2, fun l => chunk_one l⟩

/-- Witness for C8 at a concrete input. -/
theorem prober_unavailable_resolves_to_one_witness :
    (findChunkSize (fun _ => none) 100 5).1 = 1 ∧
      ∀ l : List ValidEntry, chunk l 1 = l.map (fun e => [e]) :=
  prober_unavailable_resolves_to_one (fun _ => none) 100 5 (fun _ _ => rfl)

/-! ## The script driver `main`

Lines 253-461 of the script, as a pure function of a configuration and
an oracle `World` describing the external collaborators (ethers address
utilities, the token/batch contracts behind `callWithRetry`, the RPC
node, the checkpoint file).  The run is summarised by the ordered list
of side-effecting events it performs, its terminal error (if any), the
chunks it submitted and the final in-memory confirmed-key set. -/

/-- One observable action of the run, in program order.  A failed chunk
is recorded by its submit event only: the submit-then-wait pair behind
`callWithRetry` is collapsed into one success flag per chunk. -/
inductive Event where
  | readCheckpointFile
  | writeCheckpointFile (keys : List String) (success : Bool)
  | warnCheckpointWrite (index : Nat)
  | callDecimals
  | callAllowance
  | callApprove (amount : Int)
  | callApproveWait
  | callGetBalance
  | callGetBlock
  | callEstimate (count : Nat)
  | callSubmitChunk (index : Nat) (addresses : List String) (amounts : List Int)
  | callTxWait (index : Nat)
deriving DecidableEq, Repr

/-- Whether an event is a remote (RPC) call, as opposed to a local
filesystem access or a log line. -/
def Event.isRemote : Event → Bool
  | Event.readCheckpointFile => false
  | Event.writeCheckpointFile _ _ => false
  | Event.warnCheckpointWrite _ => false
  | _ => true

def Event.isApprove : Event → Bool
  | Event.callApprove _ => true
  | _ => false

def Event.isSubmit : Event → Bool
  | Event.callSubmitChunk _ _ _ => true
  | _ => false

def Event.isCheckpointIO : Event → Bool
  | Event.readCheckpointFile => true
  | Event.writeCheckpointFile _ _ => true
  | _ => false

/-- The fatal errors `main` can throw after input loading. -/
inductive ScriptError where
  | duplicateAddresses (dups : List String)
  | noRemaining
  | insufficientBalance (required available : Int)
  | chunkFailed (index : Nat)
deriving DecidableEq, Repr

/-- The configuration surface of the script that the claims exercise. -/
structure Config where
  isNative : Bool
  decimalsOverride : Option Nat
  disableCheckpoints : Bool
deriving DecidableEq, Repr

/-- Oracles for every external collaborator the run consults.
`getAddress` is `ethers.getAddress` (canonical form or failure),
`isAddress` is `ethers.isAddress`, `parseUnits` the amount parser,
`decimalsCall` the outcome of `token.decimals()` through the retry
executor, `estimate` the outcome of `estimateForCount`, `checkpointFile`
the parsed `sentKeys` stored for this session (none = no file),
`submitOk`/`writeOk` the per-chunk outcome of submission and of the
checkpoint file write. -/
structure World where
  getAddress : String → Option String
  isAddress : String → Bool
  parseUnits : String → Nat → Int
  decimalsCall : Except Unit Nat
  allowance : Int
  balance : Int
  gasBudget : Int
  estimate : Nat → Option Int
  checkpointFile : Option (List String)
  submitOk : Nat → Bool
  writeOk : Nat → Bool

/-- The duplicate pre-check of lines 257-271: walk the entries, ignore
addresses `getAddress` rejects, collect every canonical address seen a
second time (set semantics, insertion order). -/
def dupScanAux (getAddr : String → Option String) :
    List RawEntry → List String → List String → List String
  | [], _seen, dups => dups
  | e :: rest, seen, dups =>
    match getAddr e.address with
    | none => dupScanAux getAddr rest seen dups
    | some norm =>
      if norm ∈ seen then
        dupScanAux getAddr rest seen (if norm ∈ dups then dups else dups ++ [norm])
      else
        dupScanAux getAddr rest (seen ++ [norm]) dups

def scriptDuplicates (getAddr : String → Option String) (entries : List RawEntry) :
    List String :=
  dupScanAux getAddr entries [] []

/-- Lines 277-286: the confirmed-key set loaded at startup. -/
def sentKeys0Of (cfg : Config) (w : World) : List String :=
  if cfg.disableCheckpoints then [] else w.checkpointFile.getD []

def readEventsOf (cfg : Config) (w : World) : List Event :=
  if cfg.disableCheckpoints then []
  else if w.checkpointFile.isSome then [Event.readCheckpointFile] else []

/-- Lines 288-304: the decimals used for parsing. -/
def decimalsOf (cfg : Config) (w : World) : Nat :=
  if cfg.isNative then 18
  else
    match cfg.decimalsOverride with
    | some d => d
    | none =>
      match w.decimalsCall with
      | Except.ok d => d
      | Except.error _ => 18

def decEventsOf (cfg : Config) (_w : World) : List Event :=
  if cfg.isNative then []
  else
    match cfg.decimalsOverride with
    | some _ => []
    | none => [Event.callDecimals]

/-- Lines 306-329: the validation and resumption-filter loop. -/
def validateEntries (cfg : Config) (w : World) (decimals : Nat)
    (sentKeys : List String) (entries : List RawEntry) : List ValidEntry :=
  entries.filterMap (fun e =>
    if w.isAddress e.address then
      let amt := if cfg.isNative then w.parseUnits e.amountStr 18
                 else w.parseUnits e.amountStr decimals
      if amt ≤ 0 then none
      else if cfg.disableCheckpoints ∨ ¬ (makeKey e.address e.amountStr ∈ sentKeys) then
        some ⟨e.address, e.amountStr, amt⟩
      else none
    else none)

def validOf (cfg : Config) (w : World) (entries : List RawEntry) : List ValidEntry :=
  validateEntries cfg w (decimalsOf cfg w) (sentKeys0Of cfg w) entries

/-- Lines 337-355: allowance query and one-shot approve (ERC20 mode) or
balance check (native mode). -/
def authStage (cfg : Config) (w : World) (total : Int) :
    List Event × Option ScriptError :=
  if cfg.isNative then
    if w.balance < total then
      ([Event.callGetBalance], some (ScriptError.insufficientBalance total w.balance))
    else ([Event.callGetBalance], none)
  else
    if w.allowance < total then
      ([Event.callAllowance, Event.callApprove total, Event.callApproveWait], none)
    else ([Event.callAllowance], none)

/-- The keys of a chunk's entries, line 438. -/
def chunkKeys (c : List ValidEntry) : List String :=
  c.map (fun e => makeKey e.address e.amountStr)

/-- `new Set(sentKeys)` followed by `forEach(add)`: ordered-set
insertion of each key, lines 439-440. -/
def addKeys (sentKeys ks : List String) : List String :=
  ks.foldl (fun acc k => if k ∈ acc then acc else acc ++ [k]) sentKeys

structure LoopResult where
  events : List Event
  finalSentKeys : List String
  submitted : List (List ValidEntry)
  error : Option ScriptError
deriving DecidableEq, Repr

/-- Lines 419-459: the chunk submission loop.  On a failed chunk the
error is re-thrown and the run aborts; on a confirmed chunk (unless
checkpoints are disabled) the enlarged key set is written to the file —
a write failure is only warned about — and the in-memory set is updated
after the write attempt regardless of its success. -/
def sendLoop (cfg : Config) (w : World) :
    List (List ValidEntry) → Nat → List String → LoopResult
  | [], _i, sentKeys => ⟨[], sentKeys, [], none⟩
  | c :: rest, i, sentKeys =>
    if w.submitOk i then
      let submitEvents := [Event.callSubmitChunk i (c.map (·.address)) (c.map (·.amt)),
                           Event.callTxWait i]
      if cfg.disableCheckpoints then
        let r := sendLoop cfg w rest (i + 1) sentKeys
        ⟨submitEvents ++ r.events, r.finalSentKeys, c :: r.submitted, r.error⟩
      else
        let newKeys := addKeys sentKeys (chunkKeys c)
        let writeEvents := Event.writeCheckpointFile newKeys (w.writeOk i) ::
          (if w.writeOk i then [] else [Event.warnCheckpointWrite i])
        let r := sendLoop cfg w rest (i + 1) newKeys
        ⟨submitEvents ++ writeEvents ++ r.events, r.finalSentKeys, c :: r.submitted, r.error⟩
    else
      ⟨[Event.callSubmitChunk i (c.map (·.address)) (c.map (·.amt))], sentKeys, [],
        some (ScriptError.chunkFailed i)⟩

structure RunResult where
  events : List Event
  error : Option ScriptError
  submittedChunks : List (List ValidEntry)
  finalSentKeys : List String
deriving DecidableEq, Repr

/-- Lines 253-461 of `main`, composed from the stages above: duplicate
pre-check, checkpoint read, decimals query, validation and resumption
filtering, `NoRemainingEntries` check, allowance/balance stage, gas
budget probe and chunk-size discovery, then the submission loop. -/
def runMain (cfg : Config) (w : World) (entries : List RawEntry) : RunResult :=
  let dups := scriptDuplicates w.getAddress entries
  if dups ≠ [] then ⟨[], some (ScriptError.duplicateAddresses dups), [], []⟩
  else
    let preEvents := readEventsOf cfg w ++ decEventsOf cfg w
    let sentKeys := sentKeys0Of cfg w
    let valid := validateEntries cfg w (decimalsOf cfg w) sentKeys entries
    if valid = [] then ⟨preEvents, some ScriptError.noRemaining, [], sentKeys⟩
    else
      let total := (valid.map (·.amt)).sum
      let auth := authStage cfg w total
      match auth.2 with
      | some err => ⟨preEvents ++ auth.1, some err, [], sentKeys⟩
      | none =>
        let probe := findChunkSize w.estimate w.gasBudget valid.length
        let preChunkEvents := preEvents ++ auth.1 ++ [Event.callGetBlock] ++
          probe.2.map Event.callEstimate
        let r := sendLoop cfg w (chunk valid probe.1) 0 sentKeys
        ⟨preChunkEvents ++ r.events, r.error, r.submitted, r.finalSentKeys⟩

/-! ## The UI event handler

`App.tsx`: the `normalized` memo (lines 30-46) and the `onSend` handler
(lines 141-185).  The UI is ERC20-only. -/

structure CsvRow where
  address : String
  amount : String
deriving DecidableEq, Repr

structure UiEntry where
  address : String
  amountStr : String
  amountWei : Int
deriving DecidableEq, Repr

structure UiWorld where
  allowance : Int
  estimate : Nat → Option Int
  gasBudget : Int
  submitOk : Nat → Bool

inductive UiEvent where
  | callAllowance
  | approve (amount : Int)
  | approveWait
  | callGetBlock
  | estimate (count : Nat)
  | submitChunk (index : Nat) (addresses : List String) (amounts : List Int)
  | txWait (index : Nat)
deriving DecidableEq, Repr

def UiEvent.isApprove : UiEvent → Bool
  | UiEvent.approve _ => true
  | _ => false

def UiEvent.isSubmit : UiEvent → Bool
  | UiEvent.submitChunk _ _ _ => true
  | _ => false

/-- The `normalized` memo: walk the rows; `getAddress` failures are
swallowed by the `catch`; a canonical address already seen is recorded
as a duplicate and the row is dropped (the first occurrence stays);
rows are dropped when decimals are not yet known or the parsed amount
is not positive. -/
def uiNormalizedAux (getAddr : String → Option String) (parseUnits : String → Nat → Int)
    (decimals : Option Nat) :
    List CsvRow → List String → List String → List UiEntry →
    List UiEntry × List String
  | [], _addrs, dups, out => (out, dups)
  | r :: rest, addrs, dups, out =>
    match getAddr r.address with
    | none => uiNormalizedAux getAddr parseUnits decimals rest addrs dups out
    | some addr =>
      if addr ∈ addrs then
        uiNormalizedAux getAddr parseUnits decimals rest addrs
          (if addr ∈ dups then dups else dups ++ [addr]) out
      else
        match decimals with
        | none => uiNormalizedAux getAddr parseUnits decimals rest (addrs ++ [addr]) dups out
        | some d =>
          let wei := parseUnits r.amount d
          if wei ≤ 0 then
            uiNormalizedAux getAddr parseUnits decimals rest (addrs ++ [addr]) dups out
          else
            uiNormalizedAux getAddr parseUnits decimals rest (addrs ++ [addr]) dups
              (out ++ [⟨addr, r.amount, wei⟩])

def uiNormalized (getAddr : String → Option String) (parseUnits : String → Nat → Int)
    (decimals : Option Nat) (rows : List CsvRow) : List UiEntry × List String :=
  uiNormalizedAux getAddr parseUnits decimals rows [] [] []

/-- The chunk loop of `onSend`: `rChunks`/`aChunks` are traversed by a
shared index; a failed transaction ends the handler with an error
status. -/
def uiSendLoop (w : UiWorld) :
    List (List String) → List (List Int) → Nat → List UiEvent × Option String
  | [], _, _ => ([], none)
  | _ :: _, [], _ => ([], none)
  | r :: rs, a :: amts, i =>
    if w.submitOk i then
      let rec' := uiSendLoop w rs amts (i + 1)
      ([UiEvent.submitChunk i r a, UiEvent.txWait i] ++ rec'.1, rec'.2)
    else ([UiEvent.submitChunk i r a], some "Send failed")

/-- `onSend` (ERC20): guard on empty entries, allowance query, one-shot
approve when the allowance is below the total, chunk-size estimation,
then the chunk loop. -/
def uiOnSend (w : UiWorld) (entries : List UiEntry) : List UiEvent × Option String :=
  let recipients := entries.map (·.address)
  let amounts := entries.map (·.amountWei)
  if recipients.length = 0 then ([], some "No valid entries")
  else
    let total := amounts.sum
    let authEvents :=
      if w.allowance < total then
        [UiEvent.callAllowance, UiEvent.approve total, UiEvent.approveWait]
      else [UiEvent.callAllowance]
    let probe := findChunkSize w.estimate w.gasBudget recipients.length
    let estEvents := [UiEvent.callGetBlock] ++ probe.2.map UiEvent.estimate
    let r := uiSendLoop w (chunk recipients probe.1) (chunk amounts probe.1) 0
    (authEvents ++ estEvents ++ r.1, r.2)

/-! ## Claims about the script driver -/

theorem sendLoop_no_checkpoint_io (cfg : Config) (w : World)
    (hdis : cfg.disableCheckpoints = true) :
    ∀ (cs : List (List ValidEntry)) (i : Nat) (sk : List String),
      ∀ e ∈ (sendLoop cfg w cs i sk).events, e.isCheckpointIO = false := by
  intro cs
  induction cs with
  | nil =>
    intro i sk e he
    simp only [sendLoop] at he
    cases he
  | cons c rest ih =>
    intro i sk e he
    rw [sendLoop] at he
    by_cases hok : w.submitOk i = true
    · simp only [if_pos hok, hdis, if_true] at he
      rcases List.mem_append.mp he with h | h
      · rcases List.mem_cons.mp h with h | h
        · subst h; rfl
        · rcases List.mem_cons.mp h with h | h
          · subst h; rfl
          · cases h
      · exact ih (i + 1) sk e h
    · simp only [if_neg hok] at he
      rcases List.mem_cons.mp he with h | h
      · subst h; rfl
      · cases h

theorem sendLoop_submitted_of_no_error (cfg : Config) (w : World) :
    ∀ (cs : List (List ValidEntry)) (i : Nat) (sk : List String),
      (sendLoop cfg w cs i sk).error = none →
      (sendLoop cfg w cs i sk).submitted = cs := by
  intro cs
  induction cs with
  | nil =>
    intro i sk _h
    simp [sendLoop]
  | cons c rest ih =>
    intro i sk herr
    rw [sendLoop] at herr ⊢
    by_cases hok : w.submitOk i = true
    · simp only [if_pos hok] at herr ⊢
      by_cases hdis : cfg.disableCheckpoints = true
      · simp only [if_pos hdis] at herr ⊢
        rw [ih (i + 1) sk herr]
      · simp only [if_neg hdis] at herr ⊢
        rw [ih (i + 1) (addKeys sk (chunkKeys c)) herr]
    · simp only [if_neg hok] at herr
      cases herr

theorem readEventsOf_disabled (cfg : Config) (w : World)
    (hdis : cfg.disableCheckpoints = true) : readEventsOf cfg w = [] := by
  simp [readEventsOf, hdis]

theorem decEventsOf_no_checkpoint_io (cfg : Config) (w : World) :
    ∀ e ∈ decEventsOf cfg w, e.isCheckpointIO = false := by
  intro e h
  simp only [decEventsOf] at h
  by_cases hn : cfg.isNative = true
  · simp only [if_pos hn] at h
    cases h
  · simp only [if_neg hn] at h
    rcases hd : cfg.decimalsOverride with _ | d
    · rw [hd] at h
      rcases List.mem_cons.mp h with h | h
      · subst h; rfl
      · cases h
    · rw [hd] at h
      cases h

theorem authStage_no_checkpoint_io (cfg : Config) (w : World) (total : Int) :
    ∀ e ∈ (authStage cfg w total).1, e.isCheckpointIO = false := by
  intro e he
  simp only [authStage] at he
  by_cases hn : cfg.isNative = true
  · simp only [hn, if_true] at he
    by_cases hb : w.balance < total
    · simp only [if_pos hb] at he
      rcases List.mem_cons.mp he with h | h
      · subst h; rfl
      · cases h
    · simp only [if_neg hb] at he
      rcases List.mem_cons.mp he with h | h
      · subst h; rfl
      · cases h
  · simp only [eq_false_of_ne_true hn, if_false] at he
    by_cases ha : w.allowance < total
    · simp only [if_pos ha] at he
      rcases List.mem_cons.mp he with h | h
      · subst h; rfl
      rcases List.mem_cons.mp h with h | h
      · subst h; rfl
      rcases List.mem_cons.mp h with h | h
      · subst h; rfl
      · cases h
    · simp only [if_neg ha] at he
      rcases List.mem_cons.mp he with h | h
      · subst h; rfl
      · cases h

theorem validOf_ignores_checkpointFile (cfg : Config) (w : World)
    (entries : List RawEntry) (hdis : cfg.disableCheckpoints = true)
    (ks : Option (List String)) :
    validOf cfg { w with checkpointFile := ks } entries = validOf cfg w entries := by
  simp [validOf, validateEntries, sentKeys0Of, decimalsOf, hdis]

/-- C10: when checkpoints are disabled, the checkpoint file is neither
read at startup nor written after any confirmed chunk, and every
otherwise-valid entry is submitted even if its entry key appears in an
existing checkpoint file for the same session (the validated working
set does not depend on the checkpoint file at all). -/
theorem checkpoints_disabled_spec (cfg : Config) (w : World) (entries : List RawEntry)
    (hdis : cfg.disableCheckpoints = true) :
    (∀ e ∈ (runMain cfg w entries).events, e.isCheckpointIO = false) ∧
    ((runMain cfg w entries).error = none →
      (runMain cfg w entries).submittedChunks.flatten = validOf cfg w entries) ∧
    (∀ ks, validOf cfg { w with checkpointFile := ks } entries = validOf cfg w entries) := by
  refine ⟨?_, ?_, fun ks => validOf_ignores_checkpointFile cfg w entries hdis ks⟩
  · intro e he
    simp only [runMain] at he
    by_cases hdup : scriptDuplicates w.getAddress entries ≠ []
    · simp only [if_pos hdup] at he
      cases he
    · simp only [if_neg hdup] at he
      by_cases hval : validateEntries cfg w (decimalsOf cfg w) (sentKeys0Of cfg w) entries = []
      · simp only [if_pos hval] at he
        rw [readEventsOf_disabled cfg w hdis] at he
        simp only [List.nil_append] at he
        exact decEventsOf_no_checkpoint_io cfg w e he
      · simp only [if_neg hval] at he
        rcases hauth : (authStage cfg w
            ((validateEntries cfg w (decimalsOf cfg w) (sentKeys0Of cfg w) entries).map
              (·.amt)).sum).2 with _ | err
        · simp only [hauth, readEventsOf_disabled cfg w hdis, List.nil_append,
            List.append_assoc, List.mem_append, List.mem_singleton, List.mem_map,
            or_assoc] at he
          rcases he with h | h | h | h | h
          · exact decEventsOf_no_checkpoint_io cfg w e h
          · exact authStage_no_checkpoint_io cfg w _ e h
          · subst h; rfl
          · rcases h with ⟨n, _, h⟩
            subst h; rfl
          · exact sendLoop_no_checkpoint_io cfg w hdis _ 0 _ e h
        · simp only [hauth, readEventsOf_disabled cfg w hdis, List.nil_append,
            List.mem_append] at he
          rcases he with h | h
          · exact decEventsOf_no_checkpoint_io cfg w e h
          · exact authStage_no_checkpoint_io cfg w _ e h
  · intro herr
    simp only [runMain] at herr ⊢
    by_cases hdup : scriptDuplicates w.getAddress entries ≠ []
    · simp only [if_pos hdup] at herr
      cases herr
    · simp only [if_neg hdup] at herr ⊢
      by_cases hval : validateEntries cfg w (decimalsOf cfg w) (sentKeys0Of cfg w) entries = []
      · simp only [if_pos hval] at herr
        cases herr
      · simp only [if_neg hval] at herr ⊢
        rcases hauth : (authStage cfg w
            ((validateEntries cfg w (decimalsOf cfg w) (sentKeys0Of cfg w) entries).map
              (·.amt)).sum).2 with _ | err
        · simp only [hauth] at herr ⊢
          rw [sendLoop_submitted_of_no_error cfg w _ 0 _ herr]
          have hsize : 1 ≤ (findChunkSize w.estimate w.gasBudget
              (validateEntries cfg w (decimalsOf cfg w) (sentKeys0Of cfg w)
                entries).length).1 := Nat.le_max_left 1 _
          exact chunk_join_aux _ hsize _ _ le_rfl
        · simp only [hauth] at herr
          cases herr

def exCfgC10 : Config := ⟨false, some 18, true⟩

def exWorldC10 : World :=
  ⟨some, fun _ => true, fun _ _ => 5, Except.ok 18, 1000, 0, 100,
   fun _ => none, some ["0xA|5"], fun _ => true, fun _ => true⟩

def exEntriesC10 : List RawEntry := [⟨"0xA", "5"⟩]

/-- Witness for C10 at a concrete input (the checkpoint file already
holds the single entry's key, yet the run ignores it). -/
theorem checkpoints_disabled_spec_witness :
    (∀ e ∈ (runMain exCfgC10 exWorldC10 exEntriesC10).events, e.isCheckpointIO = false) ∧
    ((runMain exCfgC10 exWorldC10 exEntriesC10).error = none →
      (runMain exCfgC10 exWorldC10 exEntriesC10).submittedChunks.flatten =
        validOf exCfgC10 exWorldC10 exEntriesC10) ∧
    (∀ ks, validOf exCfgC10 { exWorldC10 with checkpointFile := ks } exEntriesC10 =
      validOf exCfgC10 exWorldC10 exEntriesC10) :=
  checkpoints_disabled_spec exCfgC10 exWorldC10 exEntriesC10 rfl

/-! ### C5: re-run with a fully-confirmed checkpoint -/

theorem validateEntries_all_confirmed (cfg : Config) (w : World) (decimals : Nat)
    (sentKeys : List String) (entries : List RawEntry)
    (hdis : cfg.disableCheckpoints = false)
    (hall : ∀ e ∈ entries, makeKey e.address e.amountStr ∈ sentKeys) :
    validateEntries cfg w decimals sentKeys entries = [] := by
  rw [validateEntries, List.filterMap_eq_nil]
  intro e he
  by_cases haddr : w.isAddress e.address = true
  · simp only [if_pos haddr]
    by_cases hamt : (if cfg.isNative = true then w.parseUnits e.amountStr 18
        else w.parseUnits e.amountStr decimals) ≤ 0
    · simp only [if_pos hamt]
    · simp only [if_neg hamt]
      have hcond : ¬ (cfg.disableCheckpoints = true ∨
          ¬ (makeKey e.address e.amountStr ∈ sentKeys)) := by
        push_neg
        exact ⟨by simp [hdis], hall e he⟩
      simp only [if_neg hcond]
  · simp only [if_neg haddr]

/-- C5 (amended): a run whose checkpoint confirmed-key set already
contains the entry key of every input entry (checkpoints enabled,
duplicate-free input) fails with the `NoRemainingEntries` fatal error
and submits nothing; the remote calls issued before failing are exactly
the single token-decimals query of ERC20 mode without a decimals
override — in native mode or with a decimals override, zero remote
calls are issued. -/
theorem resume_all_confirmed_fails (cfg : Config) (w : World) (entries : List RawEntry)
    (hdis : cfg.disableCheckpoints = false)
    (hdup : scriptDuplicates w.getAddress entries = [])
    (hall : ∀ e ∈ entries, makeKey e.address e.amountStr ∈ sentKeys0Of cfg w) :
    (runMain cfg w entries).error = some ScriptError.noRemaining ∧
    (runMain cfg w entries).submittedChunks = [] ∧
    (runMain cfg w entries).events.filter (·.isRemote) =
      (if cfg.isNative = true ∨ cfg.decimalsOverride.isSome = true then []
       else [Event.callDecimals]) := by
  have hval := validateEntries_all_confirmed cfg w (decimalsOf cfg w)
    (sentKeys0Of cfg w) entries hdis hall
  have hdup' : ¬ (scriptDuplicates w.getAddress entries ≠ []) := by
    rw [hdup]
    exact fun h => h rfl
  simp only [runMain, if_neg hdup', if_pos hval]
  refine ⟨trivial, trivial, ?_⟩
  rw [List.filter_append]
  have hread : (readEventsOf cfg w).filter (·.isRemote) = [] := by
    simp only [readEventsOf, hdis]
    by_cases hs : w.checkpointFile.isSome = true
    · simp [hs, Event.isRemote]
    · simp [hs]
  rw [hread, List.nil_append]
  simp only [decEventsOf]
  by_cases hn : cfg.isNative = true
  · simp [hn]
  · simp only [if_neg hn]
    rcases hd : cfg.decimalsOverride with _ | d
    · simp [hn, hd, Event.isRemote]
    · simp [hn, hd]

def exCfgC5 : Config := ⟨false, none, false⟩

def exWorldC5 : World :=
  ⟨some, fun _ => true, fun _ _ => 5, Except.ok 18, 0, 0, 0,
   fun _ => none, some ["0xA|5"], fun _ => true, fun _ => true⟩

def exEntriesC5 : List RawEntry := [⟨"0xA", "5"⟩]

/-- Counterexample to C5 as stated: a concrete ERC20-mode run without a
decimals override whose checkpoint already confirms every entry key.
The run does fail with `NoRemainingEntries`, but one remote call — the
token-decimals query — is issued before failing, so the claim's "zero
remote calls issued" is false on the code. -/
theorem resume_all_confirmed_remote_counterexample :
    (∀ e ∈ exEntriesC5, makeKey e.address e.amountStr ∈ sentKeys0Of exCfgC5 exWorldC5) ∧
    (runMain exCfgC5 exWorldC5 exEntriesC5).error = some ScriptError.noRemaining ∧
    (runMain exCfgC5 exWorldC5 exEntriesC5).events.filter (·.isRemote) =
      [Event.callDecimals] := by
  refine ⟨?_, ?_, ?_⟩ <;> decide

/-- Witness for the amended C5 at the same concrete input. -/
theorem resume_all_confirmed_fails_witness :
    (runMain exCfgC5 exWorldC5 exEntriesC5).error = some ScriptError.noRemaining ∧
    (runMain exCfgC5 exWorldC5 exEntriesC5).submittedChunks = [] ∧
    (runMain exCfgC5 exWorldC5 exEntriesC5).events.filter (·.isRemote) =
      (if exCfgC5.isNative = true ∨ exCfgC5.decimalsOverride.isSome = true then []
       else [Event.callDecimals]) :=
  resume_all_confirmed_fails exCfgC5 exWorldC5 exEntriesC5 rfl (by decide)
    (by decide)

/-! ### C6 and C9: the checkpoint write behaviour of the chunk loop -/

/-- The contents of the checkpoint-file writes attempted by a run, in
order (line 443: `checkpoints[sessionId]` is set to the enlarged key
set and the whole record is written). -/
def writeContents (events : List Event) : List (List String) :=
  events.filterMap (fun e =>
    match e with
    | Event.writeCheckpointFile ks _ => some ks
    | _ => none)

/-- The sequence of confirmed-key sets after each successive chunk. -/
def checkpointSnapshots (sentKeys : List String) :
    List (List ValidEntry) → List (List String)
  | [] => []
  | c :: rest =>
    addKeys sentKeys (chunkKeys c) ::
      checkpointSnapshots (addKeys sentKeys (chunkKeys c)) rest

theorem addKeys_nil (sk : List String) : addKeys sk [] = sk := rfl

theorem addKeys_cons (sk : List String) (k : String) (ks : List String) :
    addKeys sk (k :: ks) = addKeys (if k ∈ sk then sk else sk ++ [k]) ks := rfl

theorem mem_addKeys (ks : List String) :
    ∀ (sk : List String) (x : String), x ∈ addKeys sk ks ↔ x ∈ sk ∨ x ∈ ks := by
  induction ks with
  | nil =>
    intro sk x
    rw [addKeys_nil]
    simp
  | cons k rest ih =>
    intro sk x
    rw [addKeys_cons]
    by_cases hk : k ∈ sk
    · rw [if_pos hk, ih]
      constructor
      · rintro (h | h)
        · exact Or.inl h
        · exact Or.inr (List.mem_cons_of_mem k h)
      · rintro (h | h)
        · exact Or.inl h
        · rcases List.mem_cons.mp h with h | h
          · subst h
            exact Or.inl hk
          · exact Or.inr h
    · rw [if_neg hk, ih]
      simp only [List.mem_append, List.mem_singleton, List.mem_cons]
      tauto

theorem sendLoop_writeContents (cfg : Config) (w : World)
    (hdis : cfg.disableCheckpoints = false) (hsub : ∀ i, w.submitOk i = true) :
    ∀ (cs : List (List ValidEntry)) (i : Nat) (sk : List String),
      writeContents (sendLoop cfg w cs i sk).events = checkpointSnapshots sk cs := by
  have hd : ¬ (cfg.disableCheckpoints = true) := by simp [hdis]
  intro cs
  induction cs with
  | nil =>
    intro i sk
    simp [sendLoop, writeContents, checkpointSnapshots]
  | cons c rest ih =>
    intro i sk
    rw [sendLoop]
    rw [if_pos (hsub i), if_neg hd]
    simp only [writeContents, List.filterMap_append, List.filterMap_cons]
    rw [checkpointSnapshots]
    by_cases hw : w.writeOk i = true
    · simp only [if_pos hw, List.filterMap_nil]
      have := ih (i + 1) (addKeys sk (chunkKeys c))
      simp only [writeContents] at this
      simp [this]
    · simp only [if_neg hw]
      have := ih (i + 1) (addKeys sk (chunkKeys c))
      simp only [writeContents] at this
      simp [this, List.filterMap_cons]

theorem checkpointSnapshots_length (sk : List String) (cs : List (List ValidEntry)) :
    (checkpointSnapshots sk cs).length = cs.length := by
  induction cs generalizing sk with
  | nil => rfl
  | cons c rest ih =>
    rw [checkpointSnapshots]
    simp [ih]

theorem checkpointSnapshots_step (cs : List (List ValidEntry)) :
    ∀ (sk : List String) (i : Nat), i < cs.length → ∀ x : String,
      (x ∈ (checkpointSnapshots sk cs).getD i [] ↔
        (x ∈ (sk :: checkpointSnapshots sk cs).getD i [] ∨
          x ∈ chunkKeys (cs.getD i []))) := by
  induction cs with
  | nil =>
    intro sk i hi
    cases hi
  | cons c rest ih =>
    intro sk i hi x
    rcases i with _ | i
    · rw [checkpointSnapshots]
      simp only [List.getD_cons_zero]
      exact mem_addKeys (chunkKeys c) sk x
    · rw [checkpointSnapshots]
      simp only [List.getD_cons_succ]
      exact ih (addKeys sk (chunkKeys c)) i (by simpa using hi) x

theorem checkpointSnapshots_mono_succ (cs : List (List ValidEntry)) :
    ∀ (sk : List String) (i : Nat), i < cs.length → ∀ x : String,
      x ∈ (sk :: checkpointSnapshots sk cs).getD i [] →
      x ∈ (sk :: checkpointSnapshots sk cs).getD (i + 1) [] := by
  intro sk i hi x hx
  have hstep := checkpointSnapshots_step cs sk i hi x
  have : x ∈ (checkpointSnapshots sk cs).getD i [] := hstep.mpr (Or.inl hx)
  simpa using this

theorem checkpointSnapshots_mono (cs : List (List ValidEntry)) (sk : List String)
    (x : String) :
    ∀ i j, i ≤ j → j < cs.length + 1 →
      x ∈ (sk :: checkpointSnapshots sk cs).getD i [] →
      x ∈ (sk :: checkpointSnapshots sk cs).getD j [] := by
  intro i j hij
  induction j, hij using Nat.le_induction with
  | base =>
    intro _ h
    exact h
  | succ j hij ih =>
    intro hj h
    exact checkpointSnapshots_mono_succ cs sk j (by omega) x (ih (by omega) h)

/-- C6: within one session the checkpoint confirmed-key set is
monotonically non-decreasing across chunk confirmations: the sequence
of persisted write contents is exactly `checkpointSnapshots`, there is
one write per confirmed chunk, each persisted set equals the previous
set plus the keys of the just-confirmed chunk's entries, and no key
that was present is ever removed later. -/
theorem checkpoint_set_monotone (cfg : Config) (w : World)
    (hdis : cfg.disableCheckpoints = false) (hsub : ∀ i, w.submitOk i = true)
    (cs : List (List ValidEntry)) (i0 : Nat) (sk : List String) :
    writeContents (sendLoop cfg w cs i0 sk).events = checkpointSnapshots sk cs ∧
    (checkpointSnapshots sk cs).length = cs.length ∧
    (∀ i, i < cs.length → ∀ x : String,
      (x ∈ (checkpointSnapshots sk cs).getD i [] ↔
        (x ∈ (sk :: checkpointSnapshots sk cs).getD i [] ∨
          x ∈ chunkKeys (cs.getD i [])))) ∧
    (∀ i j (x : String), i ≤ j → j < cs.length + 1 →
      x ∈ (sk :: checkpointSnapshots sk cs).getD i [] →
      x ∈ (sk :: checkpointSnapshots sk cs).getD j []) :=
  ⟨sendLoop_writeContents cfg w hdis hsub cs i0 sk,
   checkpointSnapshots_length sk cs,
   fun i hi x => checkpointSnapshots_step cs sk i hi x,
   fun i j x hij hj hx => checkpointSnapshots_mono cs sk x i j hij hj hx⟩

/-- Witness for C6 at a concrete input. -/
theorem checkpoint_set_monotone_witness :
    writeContents (sendLoop ⟨false, none, false⟩
        ⟨some, fun _ => true, fun _ _ => 5, Except.ok 18, 0, 0, 0, fun _ => none,
         none, fun _ => true, fun _ => true⟩
        [[⟨"a", "1", 1⟩], [⟨"b", "2", 2⟩]] 0 []).events =
      checkpointSnapshots [] [[⟨"a", "1", 1⟩], [⟨"b", "2", 2⟩]] ∧
    (checkpointSnapshots [] [[⟨"a", "1", 1⟩], [⟨"b", "2", 2⟩]]).length =
      [[(⟨"a", "1", 1⟩ : ValidEntry)], [⟨"b", "2", 2⟩]].length ∧
    (∀ i, i < [[(⟨"a", "1", 1⟩ : ValidEntry)], [⟨"b", "2", 2⟩]].length → ∀ x : String,
      (x ∈ (checkpointSnapshots [] [[⟨"a", "1", 1⟩], [⟨"b", "2", 2⟩]]).getD i [] ↔
        (x ∈ ([] :: checkpointSnapshots [] [[⟨"a", "1", 1⟩], [⟨"b", "2", 2⟩]]).getD i [] ∨
          x ∈ chunkKeys ([[(⟨"a", "1", 1⟩ : ValidEntry)], [⟨"b", "2", 2⟩]].getD i [])))) ∧
    (∀ i j (x : String), i ≤ j →
      j < [[(⟨"a", "1", 1⟩ : ValidEntry)], [⟨"b", "2", 2⟩]].length + 1 →
      x ∈ ([] :: checkpointSnapshots [] [[⟨"a", "1", 1⟩], [⟨"b", "2", 2⟩]]).getD i [] →
      x ∈ ([] :: checkpointSnapshots [] [[⟨"a", "1", 1⟩], [⟨"b", "2", 2⟩]]).getD j []) :=
  checkpoint_set_monotone ⟨false, none, false⟩
    ⟨some, fun _ => true, fun _ _ => 5, Except.ok 18, 0, 0, 0, fun _ => none,
     none, fun _ => true, fun _ => true⟩
    rfl (fun _ => rfl) [[⟨"a", "1", 1⟩], [⟨"b", "2", 2⟩]] 0 []

theorem sendLoop_error_none (cfg : Config) (w : World)
    (hsub : ∀ i, w.submitOk i = true) :
    ∀ (cs : List (List ValidEntry)) (i : Nat) (sk : List String),
      (sendLoop cfg w cs i sk).error = none := by
  intro cs
  induction cs with
  | nil =>
    intro i sk
    rfl
  | cons c rest ih =>
    intro i sk
    rw [sendLoop, if_pos (hsub i)]
    by_cases hd : cfg.disableCheckpoints = true
    · simp only [if_pos hd]
      exact ih (i + 1) sk
    · simp only [if_neg hd]
      exact ih (i + 1) (addKeys sk (chunkKeys c))

theorem sendLoop_finalSentKeys (cfg : Config) (w : World)
    (hdis : cfg.disableCheckpoints = false) (hsub : ∀ i, w.submitOk i = true) :
    ∀ (cs : List (List ValidEntry)) (i : Nat) (sk : List String),
      (sendLoop cfg w cs i sk).finalSentKeys =
        cs.foldl (fun k c => addKeys k (chunkKeys c)) sk := by
  have hd : ¬ (cfg.disableCheckpoints = true) := by simp [hdis]
  intro cs
  induction cs with
  | nil =>
    intro i sk
    rfl
  | cons c rest ih =>
    intro i sk
    rw [sendLoop, if_pos (hsub i), if_neg hd]
    simp only [List.foldl_cons]
    exact ih (i + 1) (addKeys sk (chunkKeys c))

theorem sendLoop_warns_on_write_failure (cfg : Config) (w : World)
    (hdis : cfg.disableCheckpoints = false) (hsub : ∀ i, w.submitOk i = true) :
    ∀ (cs : List (List ValidEntry)) (i0 : Nat) (sk : List String) (i : Nat),
      i0 ≤ i → i < i0 + cs.length → w.writeOk i = false →
      Event.warnCheckpointWrite i ∈ (sendLoop cfg w cs i0 sk).events := by
  have hd : ¬ (cfg.disableCheckpoints = true) := by simp [hdis]
  intro cs
  induction cs with
  | nil =>
    intro i0 sk i h1 h2
    simp at h2
    omega
  | cons c rest ih =>
    intro i0 sk i h1 h2 hw
    rw [sendLoop, if_pos (hsub i0), if_neg hd]
    simp only [List.mem_append, List.mem_cons]
    by_cases hi : i = i0
    · subst hi
      have : ¬ (w.writeOk i = true) := by simp [hw]
      left
      right
      right
      rw [if_neg this]
      simp
    · right
      exact ih (i0 + 1) (addKeys sk (chunkKeys c)) i (by omega)
        (by simp only [List.length_cons] at h2; omega) hw

/-- C9: a failure while writing the checkpoint file after a confirmed
chunk is not fatal: the run completes, keeps submitting every remaining
chunk, the in-run accounting of confirmed keys is a function of the
chunks alone (unaffected by which writes failed), and each failed write
produces a warning event. -/
theorem checkpoint_write_failure_not_fatal (cfg : Config) (w : World)
    (hdis : cfg.disableCheckpoints = false) (hsub : ∀ i, w.submitOk i = true)
    (cs : List (List ValidEntry)) (i0 : Nat) (sk : List String) :
    (sendLoop cfg w cs i0 sk).error = none ∧
    (sendLoop cfg w cs i0 sk).submitted = cs ∧
    (sendLoop cfg w cs i0 sk).finalSentKeys =
      cs.foldl (fun k c => addKeys k (chunkKeys c)) sk ∧
    (∀ i, i0 ≤ i → i < i0 + cs.length → w.writeOk i = false →
      Event.warnCheckpointWrite i ∈ (sendLoop cfg w cs i0 sk).events) :=
  ⟨sendLoop_error_none cfg w hsub cs i0 sk,
   sendLoop_submitted_of_no_error cfg w cs i0 sk (sendLoop_error_none cfg w hsub cs i0 sk),
   sendLoop_finalSentKeys cfg w hdis hsub cs i0 sk,
   fun i h1 h2 hw => sendLoop_warns_on_write_failure cfg w hdis hsub cs i0 sk i h1 h2 hw⟩

/-- Witness for C9 at a concrete input whose single checkpoint write
fails. -/
theorem checkpoint_write_failure_not_fatal_witness :
    (sendLoop ⟨true, none, false⟩
        ⟨some, fun _ => true, fun _ _ => 5, Except.ok 18, 0, 0, 0, fun _ => none,
         none, fun _ => true, fun _ => false⟩
        [[⟨"a", "1", 1⟩]] 0 []).error = none ∧
    (sendLoop ⟨true, none, false⟩
        ⟨some, fun _ => true, fun _ _ => 5, Except.ok 18, 0, 0, 0, fun _ => none,
         none, fun _ => true, fun _ => false⟩
        [[⟨"a", "1", 1⟩]] 0 []).submitted = [[⟨"a", "1", 1⟩]] ∧
    (sendLoop ⟨true, none, false⟩
        ⟨some, fun _ => true, fun _ _ => 5, Except.ok 18, 0, 0, 0, fun _ => none,
         none, fun _ => true, fun _ => false⟩
        [[⟨"a", "1", 1⟩]] 0 []).finalSentKeys =
      [[(⟨"a", "1", 1⟩ : ValidEntry)]].foldl (fun k c => addKeys k (chunkKeys c)) [] ∧
    (∀ i, 0 ≤ i → i < 0 + [[(⟨"a", "1", 1⟩ : ValidEntry)]].length →
      (fun (_ : Nat) => false) i = false →
      Event.warnCheckpointWrite i ∈ (sendLoop ⟨true, none, false⟩
        ⟨some, fun _ => true, fun _ _ => 5, Except.ok 18, 0, 0, 0, fun _ => none,
         none, fun _ => true, fun _ => false⟩
        [[⟨"a", "1", 1⟩]] 0 []).events) :=
  checkpoint_write_failure_not_fatal ⟨true, none, false⟩
    ⟨some, fun _ => true, fun _ _ => 5, Except.ok 18, 0, 0, 0, fun _ => none,
     none, fun _ => true, fun _ => false⟩
    rfl (fun _ => rfl) [[⟨"a", "1", 1⟩]] 0 []

/-! ### C7: the one-shot approve -/

def approveAmountOf : Event → Option Int
  | Event.callApprove a => some a
  | _ => none

/-- The amounts of the approve requests a run issues, in order. -/
def approveAmounts (events : List Event) : List Int :=
  events.filterMap approveAmountOf

/-- The total remaining amount required across the whole run, line 337. -/
def totalOf (cfg : Config) (w : World) (entries : List RawEntry) : Int :=
  ((validOf cfg w entries).map (·.amt)).sum

theorem approveAmountOf_eq_none (e : Event) (h : e.isApprove = false) :
    approveAmountOf e = none := by
  cases e <;> first
    | rfl
    | exact absurd h (by simp [Event.isApprove])

theorem approveAmounts_eq_nil (l : List Event) (h : ∀ e ∈ l, e.isApprove = false) :
    List.filterMap approveAmountOf l = [] := by
  rw [List.filterMap_eq_nil]
  intro e he
  exact approveAmountOf_eq_none e (h e he)

theorem readEventsOf_mem (cfg : Config) (w : World) :
    ∀ e ∈ readEventsOf cfg w, e = Event.readCheckpointFile := by
  intro e he
  simp only [readEventsOf] at he
  by_cases hd : cfg.disableCheckpoints = true
  · rw [if_pos hd] at he
    cases he
  · rw [if_neg hd] at he
    by_cases hs : w.checkpointFile.isSome = true
    · rw [if_pos hs] at he
      rcases List.mem_cons.mp he with h | h
      · exact h
      · cases h
    · rw [if_neg hs] at he
      cases he

theorem decEventsOf_mem (cfg : Config) (w : World) :
    ∀ e ∈ decEventsOf cfg w, e = Event.callDecimals := by
  intro e he
  simp only [decEventsOf] at he
  by_cases hn : cfg.isNative = true
  · rw [if_pos hn] at he
    cases he
  · rw [if_neg hn] at he
    rcases hd : cfg.decimalsOverride with _ | d
    · rw [hd] at he
      rcases List.mem_cons.mp he with h | h
      · exact h
      · cases h
    · rw [hd] at he
      cases he

theorem sendLoop_no_approve (cfg : Config) (w : World) :
    ∀ (cs : List (List ValidEntry)) (i : Nat) (sk : List String),
      ∀ e ∈ (sendLoop cfg w cs i sk).events, e.isApprove = false := by
  intro cs
  induction cs with
  | nil =>
    intro i sk e he
    cases he
  | cons c rest ih =>
    intro i sk e he
    rw [sendLoop] at he
    by_cases hok : w.submitOk i = true
    · rw [if_pos hok] at he
      by_cases hd : cfg.disableCheckpoints = true
      · rw [if_pos hd] at he
        rcases List.mem_append.mp he with h | h
        · rcases List.mem_cons.mp h with h | h
          · subst h; rfl
          rcases List.mem_cons.mp h with h | h
          · subst h; rfl
          · cases h
        · exact ih (i + 1) sk e h
      · rw [if_neg hd] at he
        rcases List.mem_append.mp he with h | h
        · rcases List.mem_append.mp h with h | h
          · rcases List.mem_cons.mp h with h | h
            · subst h; rfl
            rcases List.mem_cons.mp h with h | h
            · subst h; rfl
            · cases h
          · rcases List.mem_cons.mp h with h | h
            · subst h; rfl
            · by_cases hw : w.writeOk i = true
              · rw [if_pos hw] at h
                cases h
              · rw [if_neg hw] at h
                rcases List.mem_cons.mp h with h | h
                · subst h; rfl
                · cases h
        · exact ih (i + 1) (addKeys sk (chunkKeys c)) e h
    · rw [if_neg hok] at he
      rcases List.mem_cons.mp he with h | h
      · subst h; rfl
      · cases h

/-- The event trace of a duplicate-free ERC20 run with a non-empty
working set, stage by stage. -/
theorem runMain_events_shape (cfg : Config) (w : World) (entries : List RawEntry)
    (hn : cfg.isNative = false)
    (hdup : scriptDuplicates w.getAddress entries = [])
    (hval : validOf cfg w entries ≠ []) :
    (runMain cfg w entries).events =
      (readEventsOf cfg w ++ decEventsOf cfg w) ++
      ((if w.allowance < totalOf cfg w entries then
          [Event.callAllowance, Event.callApprove (totalOf cfg w entries),
           Event.callApproveWait]
        else [Event.callAllowance]) ++
      ([Event.callGetBlock] ++
      ((findChunkSize w.estimate w.gasBudget
          (validOf cfg w entries).length).2.map Event.callEstimate ++
      (sendLoop cfg w
        (chunk (validOf cfg w entries)
          (findChunkSize w.estimate w.gasBudget (validOf cfg w entries).length).1)
        0 (sentKeys0Of cfg w)).events))) := by
  have hdup' : ¬ (scriptDuplicates w.getAddress entries ≠ []) := by
    rw [hdup]
    exact fun h => h rfl
  have hn' : ¬ (cfg.isNative = true) := by simp [hn]
  rw [runMain]
  rw [if_neg hdup']
  rw [validOf] at hval
  rw [if_neg hval]
  simp only [authStage, if_neg hn']
  by_cases hlt : w.allowance <
      ((validateEntries cfg w (decimalsOf cfg w) (sentKeys0Of cfg w) entries).map
        (·.amt)).sum
  · simp only [totalOf, validOf, if_pos hlt, List.append_assoc]
  · simp only [totalOf, validOf, if_neg hlt, List.append_assoc]

def uiApproveAmountOf : UiEvent → Option Int
  | UiEvent.approve a => some a
  | _ => none

/-- The amounts of the approve requests the UI handler issues, in
order. -/
def uiApproveAmounts (events : List UiEvent) : List Int :=
  events.filterMap uiApproveAmountOf

theorem uiApproveAmountOf_eq_none (e : UiEvent) (h : e.isApprove = false) :
    uiApproveAmountOf e = none := by
  cases e <;> first
    | rfl
    | exact absurd h (by simp [UiEvent.isApprove])

theorem uiApproveAmounts_eq_nil (l : List UiEvent) (h : ∀ e ∈ l, e.isApprove = false) :
    List.filterMap uiApproveAmountOf l = [] := by
  rw [List.filterMap_eq_nil]
  intro e he
  exact uiApproveAmountOf_eq_none e (h e he)

theorem uiSendLoop_no_approve (w : UiWorld) :
    ∀ (rs : List (List String)) (amts : List (List Int)) (i : Nat),
      ∀ e ∈ (uiSendLoop w rs amts i).1, e.isApprove = false := by
  intro rs
  induction rs with
  | nil =>
    intro amts i e he
    cases he
  | cons r rest ih =>
    intro amts i e he
    rcases amts with _ | ⟨a, amts⟩
    · cases he
    · rw [uiSendLoop] at he
      by_cases hok : w.submitOk i = true
      · rw [if_pos hok] at he
        rcases List.mem_append.mp he with h | h
        · rcases List.mem_cons.mp h with h | h
          · subst h; rfl
          rcases List.mem_cons.mp h with h | h
          · subst h; rfl
          · cases h
        · exact ih amts (i + 1) e h
      · rw [if_neg hok] at he
        rcases List.mem_cons.mp he with h | h
        · subst h; rfl
        · cases h

/-- The event trace of `onSend` on a non-empty normalized entry list. -/
theorem uiOnSend_events_shape (w : UiWorld) (entries : List UiEntry)
    (hne : entries ≠ []) :
    (uiOnSend w entries).1 =
      (if w.allowance < (entries.map (·.amountWei)).sum then
        [UiEvent.callAllowance, UiEvent.approve ((entries.map (·.amountWei)).sum),
         UiEvent.approveWait]
       else [UiEvent.callAllowance]) ++
      ([UiEvent.callGetBlock] ++
       ((findChunkSize w.estimate w.gasBudget (entries.map (·.address)).length).2.map
          UiEvent.estimate ++
        (uiSendLoop w
          (chunk (entries.map (·.address))
            (findChunkSize w.estimate w.gasBudget (entries.map (·.address)).length).1)
          (chunk (entries.map (·.amountWei))
            (findChunkSize w.estimate w.gasBudget (entries.map (·.address)).length).1)
          0).1)) := by
  have h0 : ¬ ((entries.map (·.address)).length = 0) := by
    simp only [List.length_map]
    intro h
    exact hne (List.length_eq_zero.mp h)
  rw [uiOnSend]
  rw [if_neg h0]
  simp only [List.append_assoc]

/-- C7: for token-style assets the run issues an approve at most once,
before the first chunk is submitted and never per chunk; it is issued
exactly when the queried allowance is strictly below the total
remaining amount required across the whole run and requests exactly
that total.  The first conjunct pins the approve requests of the script
run, the second splits its trace into an approve-free submission phase
preceded by a submission-free setup phase; the last two conjuncts state
the same two facts for the UI handler. -/
theorem approve_once_before_chunks (cfg : Config) (w : World) (entries : List RawEntry)
    (hn : cfg.isNative = false)
    (hdup : scriptDuplicates w.getAddress entries = [])
    (hval : validOf cfg w entries ≠ [])
    (uw : UiWorld) (uiEntries : List UiEntry) (huv : uiEntries ≠ []) :
    approveAmounts (runMain cfg w entries).events =
      (if w.allowance < totalOf cfg w entries then [totalOf cfg w entries] else []) ∧
    (∃ pre post, (runMain cfg w entries).events = pre ++ post ∧
      (∀ e ∈ pre, e.isSubmit = false) ∧ (∀ e ∈ post, e.isApprove = false)) ∧
    uiApproveAmounts (uiOnSend uw uiEntries).1 =
      (if uw.allowance < (uiEntries.map (·.amountWei)).sum then
        [(uiEntries.map (·.amountWei)).sum] else []) ∧
    (∃ pre post, (uiOnSend uw uiEntries).1 = pre ++ post ∧
      (∀ e ∈ pre, e.isSubmit = false) ∧ (∀ e ∈ post, e.isApprove = false)) := by
  have hshape := runMain_events_shape cfg w entries hn hdup hval
  have hushape := uiOnSend_events_shape uw uiEntries huv
  have hread : ∀ e ∈ readEventsOf cfg w, e.isApprove = false := by
    intro e he
    rw [readEventsOf_mem cfg w e he]
    rfl
  have hdec : ∀ e ∈ decEventsOf cfg w, e.isApprove = false := by
    intro e he
    rw [decEventsOf_mem cfg w e he]
    rfl
  have hest : ∀ e ∈ (findChunkSize w.estimate w.gasBudget
      (validOf cfg w entries).length).2.map Event.callEstimate, e.isApprove = false := by
    intro e he
    rcases List.mem_map.mp he with ⟨n, _, h⟩
    subst h
    rfl
  refine ⟨?_, ?_, ?_, ?_⟩
  · rw [hshape]
    simp only [approveAmounts, List.filterMap_append]
    rw [approveAmounts_eq_nil _ hread, approveAmounts_eq_nil _ hdec,
      approveAmounts_eq_nil _ hest,
      approveAmounts_eq_nil _ (sendLoop_no_approve cfg w _ 0 (sentKeys0Of cfg w))]
    by_cases hlt : w.allowance < totalOf cfg w entries
    · simp only [if_pos hlt]
      simp [approveAmountOf]
    · simp only [if_neg hlt]
      simp [approveAmountOf]
  · refine ⟨(readEventsOf cfg w ++ decEventsOf cfg w) ++
      ((if w.allowance < totalOf cfg w entries then
          [Event.callAllowance, Event.callApprove (totalOf cfg w entries),
           Event.callApproveWait]
        else [Event.callAllowance]) ++
      ([Event.callGetBlock] ++
        (findChunkSize w.estimate w.gasBudget
            (validOf cfg w entries).length).2.map Event.callEstimate)),
      (sendLoop cfg w
        (chunk (validOf cfg w entries)
          (findChunkSize w.estimate w.gasBudget (validOf cfg w entries).length).1)
        0 (sentKeys0Of cfg w)).events, ?_, ?_, ?_⟩
    · rw [hshape]
      simp only [List.append_assoc]
    · intro e he
      simp only [List.mem_append] at he
      rcases he with (h | h) | (h | h | h)
      · rw [readEventsOf_mem cfg w e h]; rfl
      · rw [decEventsOf_mem cfg w e h]; rfl
      · by_cases hlt : w.allowance < totalOf cfg w entries
        · rw [if_pos hlt] at h
          rcases List.mem_cons.mp h with h | h
          · subst h; rfl
          rcases List.mem_cons.mp h with h | h
          · subst h; rfl
          rcases List.mem_cons.mp h with h | h
          · subst h; rfl
          · cases h
        · rw [if_neg hlt] at h
          rcases List.mem_cons.mp h with h | h
          · subst h; rfl
          · cases h
      · rcases List.mem_cons.mp h with h | h
        · subst h; rfl
        · cases h
      · rcases List.mem_map.mp h with ⟨n, _, h⟩
        subst h
        rfl
    · exact sendLoop_no_approve cfg w _ 0 (sentKeys0Of cfg w)
  · rw [hushape]
    simp only [uiApproveAmounts, List.filterMap_append]
    have huest : ∀ e ∈ (findChunkSize uw.estimate uw.gasBudget
        (uiEntries.map (·.address)).length).2.map UiEvent.estimate,
        e.isApprove = false := by
      intro e he
      rcases List.mem_map.mp he with ⟨n, _, h⟩
      subst h
      rfl
    rw [uiApproveAmounts_eq_nil _ huest,
      uiApproveAmounts_eq_nil _ (uiSendLoop_no_approve uw _ _ 0)]
    by_cases hlt : uw.allowance < (uiEntries.map (·.amountWei)).sum
    · simp only [if_pos hlt]
      simp [uiApproveAmountOf]
    · simp only [if_neg hlt]
      simp [uiApproveAmountOf]
  · refine ⟨(if uw.allowance < (uiEntries.map (·.amountWei)).sum then
        [UiEvent.callAllowance, UiEvent.approve ((uiEntries.map (·.amountWei)).sum),
         UiEvent.approveWait]
       else [UiEvent.callAllowance]) ++
      ([UiEvent.callGetBlock] ++
        (findChunkSize uw.estimate uw.gasBudget
            (uiEntries.map (·.address)).length).2.map UiEvent.estimate),
      (uiSendLoop uw
        (chunk (uiEntries.map (·.address))
          (findChunkSize uw.estimate uw.gasBudget (uiEntries.map (·.address)).length).1)
        (chunk (uiEntries.map (·.amountWei))
          (findChunkSize uw.estimate uw.gasBudget (uiEntries.map (·.address)).length).1)
        0).1, ?_, ?_, ?_⟩
    · rw [hushape]
      simp only [List.append_assoc]
    · intro e he
      simp only [List.mem_append] at he
      rcases he with h | h | h
      · by_cases hlt : uw.allowance < (uiEntries.map (·.amountWei)).sum
        · rw [if_pos hlt] at h
          rcases List.mem_cons.mp h with h | h
          · subst h; rfl
          rcases List.mem_cons.mp h with h | h
          · subst h; rfl
          rcases List.mem_cons.mp h with h | h
          · subst h; rfl
          · cases h
        · rw [if_neg hlt] at h
          rcases List.mem_cons.mp h with h | h
          · subst h; rfl
          · cases h
      · rcases List.mem_cons.mp h with h | h
        · subst h; rfl
        · cases h
      · rcases List.mem_map.mp h with ⟨n, _, h⟩
        subst h
        rfl
    · exact uiSendLoop_no_approve uw _ _ 0

def exCfgC7 : Config := ⟨false, some 18, false⟩

def exWorldC7 : World :=
  ⟨some, fun _ => true, fun _ _ => 5, Except.ok 18, 0, 0, 0, fun _ => none,
   none, fun _ => true, fun _ => true⟩

def exEntriesC7 : List RawEntry := [⟨"0xB", "7"⟩]

def exUiWorldC7 : UiWorld := ⟨0, fun _ => none, 0, fun _ => true⟩

def exUiEntriesC7 : List UiEntry := [⟨"0xB", "7", 5⟩]

/-- Witness for C7 at a concrete input (allowance 0, so the approve is
issued, for exactly the run total). -/
theorem approve_once_before_chunks_witness :
    approveAmounts (runMain exCfgC7 exWorldC7 exEntriesC7).events =
      (if exWorldC7.allowance < totalOf exCfgC7 exWorldC7 exEntriesC7 then
        [totalOf exCfgC7 exWorldC7 exEntriesC7] else []) ∧
    (∃ pre post, (runMain exCfgC7 exWorldC7 exEntriesC7).events = pre ++ post ∧
      (∀ e ∈ pre, e.isSubmit = false) ∧ (∀ e ∈ post, e.isApprove = false)) ∧
    uiApproveAmounts (uiOnSend exUiWorldC7 exUiEntriesC7).1 =
      (if exUiWorldC7.allowance < (exUiEntriesC7.map (·.amountWei)).sum then
        [(exUiEntriesC7.map (·.amountWei)).sum] else []) ∧
    (∃ pre post, (uiOnSend exUiWorldC7 exUiEntriesC7).1 = pre ++ post ∧
      (∀ e ∈ pre, e.isSubmit = false) ∧ (∀ e ∈ post, e.isApprove = false)) :=
  approve_once_before_chunks exCfgC7 exWorldC7 exEntriesC7 rfl (by decide)
    (by decide) exUiWorldC7 exUiEntriesC7 (by decide)

/-! ### C3: duplicate canonical addresses -/

theorem dupScanAux_cons_none (g : String → Option String) (e : RawEntry)
    (rest : List RawEntry) (seen dups : List String) (hc : g e.address = none) :
    dupScanAux g (e :: rest) seen dups = dupScanAux g rest seen dups := by
  rw [dupScanAux, hc]

theorem dupScanAux_cons_some (g : String → Option String) (e : RawEntry)
    (rest : List RawEntry) (seen dups : List String) (norm : String)
    (hc : g e.address = some norm) :
    dupScanAux g (e :: rest) seen dups =
      (if norm ∈ seen then
        dupScanAux g rest seen (if norm ∈ dups then dups else dups ++ [norm])
      else dupScanAux g rest (seen ++ [norm]) dups) := by
  rw [dupScanAux, hc]

theorem dupScanAux_spec (g : String → Option String) :
    ∀ (l : List RawEntry) (seen dups : List String),
      (∀ a, a ∈ dups → a ∈ seen) →
      ∀ x, (x ∈ dupScanAux g l seen dups ↔
        (x ∈ dups ∨
          (x ∈ seen ∧ 1 ≤ l.countP (fun e => decide (g e.address = some x))) ∨
          2 ≤ l.countP (fun e => decide (g e.address = some x)))) := by
  intro l
  induction l with
  | nil =>
    intro seen dups hsub x
    simp [dupScanAux]
  | cons e rest ih =>
    intro seen dups hsub x
    rcases hc : g e.address with _ | norm
    · rw [dupScanAux_cons_none g e rest seen dups hc]
      rw [ih seen dups hsub x]
      simp [List.countP_cons, hc]
    · rw [dupScanAux_cons_some g e rest seen dups norm hc]
      by_cases hmem : norm ∈ seen
      · rw [if_pos hmem]
        have hsub' : ∀ a, a ∈ (if norm ∈ dups then dups else dups ++ [norm]) → a ∈ seen := by
          intro a ha
          by_cases hd : norm ∈ dups
          · rw [if_pos hd] at ha
            exact hsub a ha
          · rw [if_neg hd] at ha
            rcases List.mem_append.mp ha with h | h
            · exact hsub a h
            · rw [List.mem_singleton.mp h]
              exact hmem
        rw [ih seen _ hsub' x]
        by_cases hx : norm = x
        · subst hx
          have hd' : norm ∈ (if norm ∈ dups then dups else dups ++ [norm]) := by
            by_cases hd : norm ∈ dups
            · rw [if_pos hd]; exact hd
            · rw [if_neg hd]; exact List.mem_append_right _ (List.mem_singleton.mpr rfl)
          simp only [List.countP_cons, hc, decide_eq_true_eq, if_pos rfl]
          constructor
          · intro _
            right
            left
            refine ⟨hmem, ?_⟩
            simp only [if_true]
            omega
          · intro _
            exact Or.inl hd'
        · have hxs : ¬ (g e.address = some x) := by
            rw [hc]
            intro h
            exact hx (Option.some.inj h)
          simp only [List.countP_cons, hc]
          have hdec : (decide (some norm = some x)) = false := by
            simp only [decide_eq_false_iff_not]
            intro h
            exact hx (Option.some.inj h)
          rw [hdec]
          simp only [Bool.false_eq_true, if_false, Nat.add_zero]
          have hmm : (x ∈ (if norm ∈ dups then dups else dups ++ [norm])) ↔ x ∈ dups := by
            by_cases hd : norm ∈ dups
            · rw [if_pos hd]
            · rw [if_neg hd]
              simp only [List.mem_append, List.mem_singleton]
              constructor
              · rintro (h | h)
                · exact h
                · exact absurd h.symm hx
              · exact Or.inl
          rw [hmm]
      · rw [if_neg hmem]
        have hsub' : ∀ a, a ∈ dups → a ∈ seen ++ [norm] := by
          intro a ha
          exact List.mem_append_left _ (hsub a ha)
        rw [ih (seen ++ [norm]) dups hsub' x]
        by_cases hx : norm = x
        · subst hx
          have hnd : ¬ (norm ∈ dups) := fun h => hmem (hsub norm h)
          simp only [List.countP_cons, hc, decide_eq_true_eq, if_pos rfl]
          constructor
          · rintro (h | ⟨_, h⟩ | h)
            · exact absurd h hnd
            · right
              right
              simp only [if_true]
              omega
            · right
              right
              simp only [if_true]
              omega
          · rintro (h | ⟨h, _⟩ | h)
            · exact absurd h hnd
            · exact absurd h hmem
            · right
              left
              refine ⟨List.mem_append_right _ (List.mem_singleton.mpr rfl), ?_⟩
              simp only [if_true] at h
              omega
        · simp only [List.countP_cons, hc]
          have hdec : (decide (some norm = some x)) = false := by
            simp only [decide_eq_false_iff_not]
            intro h
            exact hx (Option.some.inj h)
          rw [hdec]
          simp only [Bool.false_eq_true, if_false, Nat.add_zero]
          have hmm : (x ∈ seen ++ [norm]) ↔ x ∈ seen := by
            simp only [List.mem_append, List.mem_singleton]
            constructor
            · rintro (h | h)
              · exact h
              · exact absurd h.symm hx
            · exact Or.inl
          rw [hmm]

theorem scriptDuplicates_spec (g : String → Option String) (entries : List RawEntry)
    (x : String) :
    x ∈ scriptDuplicates g entries ↔
      2 ≤ entries.countP (fun e => decide (g e.address = some x)) := by
  rw [scriptDuplicates,
    dupScanAux_spec g entries [] [] (fun a ha => absurd ha (List.not_mem_nil a)) x]
  simp

theorem uiNormalizedAux_cons_none (g : String → Option String)
    (pu : String → Nat → Int) (d : Option Nat) (r : CsvRow) (rest : List CsvRow)
    (addrs dups : List String) (out : List UiEntry) (hc : g r.address = none) :
    uiNormalizedAux g pu d (r :: rest) addrs dups out =
      uiNormalizedAux g pu d rest addrs dups out := by
  rw [uiNormalizedAux, hc]

theorem uiNormalizedAux_cons_some_dnone (g : String → Option String)
    (pu : String → Nat → Int) (r : CsvRow) (rest : List CsvRow)
    (addrs dups : List String) (out : List UiEntry) (addr : String)
    (hc : g r.address = some addr) :
    uiNormalizedAux g pu none (r :: rest) addrs dups out =
      (if addr ∈ addrs then
        uiNormalizedAux g pu none rest addrs
          (if addr ∈ dups then dups else dups ++ [addr]) out
      else uiNormalizedAux g pu none rest (addrs ++ [addr]) dups out) := by
  rw [uiNormalizedAux, hc]

theorem uiNormalizedAux_cons_some_ddec (g : String → Option String)
    (pu : String → Nat → Int) (dec : Nat) (r : CsvRow) (rest : List CsvRow)
    (addrs dups : List String) (out : List UiEntry) (addr : String)
    (hc : g r.address = some addr) :
    uiNormalizedAux g pu (some dec) (r :: rest) addrs dups out =
      (if addr ∈ addrs then
        uiNormalizedAux g pu (some dec) rest addrs
          (if addr ∈ dups then dups else dups ++ [addr]) out
      else
        if pu r.amount dec ≤ 0 then
          uiNormalizedAux g pu (some dec) rest (addrs ++ [addr]) dups out
        else
          uiNormalizedAux g pu (some dec) rest (addrs ++ [addr]) dups
            (out ++ [⟨addr, r.amount, pu r.amount dec⟩])) := by
  rw [uiNormalizedAux, hc]

theorem uiNormalizedAux_addr_nodup (g : String → Option String)
    (pu : String → Nat → Int) (d : Option Nat) :
    ∀ (rows : List CsvRow) (addrs dups : List String) (out : List UiEntry),
      (∀ a ∈ out.map (·.address), a ∈ addrs) → (out.map (·.address)).Nodup →
      ((uiNormalizedAux g pu d rows addrs dups out).1.map (·.address)).Nodup := by
  intro rows
  induction rows with
  | nil =>
    intro addrs dups out hsub hnd
    exact hnd
  | cons r rest ih =>
    intro addrs dups out hsub hnd
    rcases hc : g r.address with _ | addr
    · rw [uiNormalizedAux_cons_none g pu d r rest addrs dups out hc]
      exact ih addrs dups out hsub hnd
    · rcases d with _ | dec
      · rw [uiNormalizedAux_cons_some_dnone g pu r rest addrs dups out addr hc]
        by_cases hmem : addr ∈ addrs
        · rw [if_pos hmem]
          exact ih addrs _ out hsub hnd
        · rw [if_neg hmem]
          exact ih (addrs ++ [addr]) dups out
            (fun a ha => List.mem_append_left _ (hsub a ha)) hnd
      · rw [uiNormalizedAux_cons_some_ddec g pu dec r rest addrs dups out addr hc]
        by_cases hmem : addr ∈ addrs
        · rw [if_pos hmem]
          exact ih addrs _ out hsub hnd
        · rw [if_neg hmem]
          by_cases hw : pu r.amount dec ≤ 0
          · rw [if_pos hw]
            exact ih (addrs ++ [addr]) dups out
              (fun a ha => List.mem_append_left _ (hsub a ha)) hnd
          · rw [if_neg hw]
            refine ih (addrs ++ [addr]) dups (out ++ [⟨addr, r.amount, pu r.amount dec⟩])
              ?_ ?_
            · intro a ha
              simp only [List.map_append, List.map_cons, List.map_nil,
                List.mem_append, List.mem_singleton] at ha
              rcases ha with h | h
              · exact List.mem_append_left _ (hsub a h)
              · subst h
                exact List.mem_append_right _ (List.mem_singleton.mpr rfl)
            · simp only [List.map_append, List.map_cons, List.map_nil]
              rw [List.nodup_append]
              refine ⟨hnd, List.nodup_singleton _, ?_⟩
              intro a ha hb
              rcases List.mem_singleton.mp hb with rfl
              exact hmem (hsub a ha)

theorem uiSendLoop_error_none (w : UiWorld) (hsub : ∀ i, w.submitOk i = true) :
    ∀ (rs : List (List String)) (amts : List (List Int)) (i : Nat),
      (uiSendLoop w rs amts i).2 = none := by
  intro rs
  induction rs with
  | nil =>
    intro amts i
    rfl
  | cons r rest ih =>
    intro amts i
    rcases amts with _ | ⟨a, amts⟩
    · rfl
    · rw [uiSendLoop, if_pos (hsub i)]
      exact ih amts (i + 1)

theorem uiOnSend_error_eq (w : UiWorld) (entries : List UiEntry) (hne : entries ≠ []) :
    (uiOnSend w entries).2 =
      (uiSendLoop w
        (chunk (entries.map (·.address))
          (findChunkSize w.estimate w.gasBudget (entries.map (·.address)).length).1)
        (chunk (entries.map (·.amountWei))
          (findChunkSize w.estimate w.gasBudget (entries.map (·.address)).length).1)
        0).2 := by
  have h0 : ¬ ((entries.map (·.address)).length = 0) := by
    simp only [List.length_map]
    intro h
    exact hne (List.length_eq_zero.mp h)
  rw [uiOnSend, if_neg h0]

/-- A non-empty `normalized` entry list is actually sent by `onSend`
(when every transaction succeeds): the handler reports no failure and
at least one chunk submission is issued. -/
theorem uiOnSend_proceeds (w : UiWorld) (entries : List UiEntry) (hne : entries ≠ [])
    (hsub : ∀ i, w.submitOk i = true) :
    (uiOnSend w entries).2 = none ∧
    ∃ e ∈ (uiOnSend w entries).1, e.isSubmit = true := by
  constructor
  · rw [uiOnSend_error_eq w entries hne]
    exact uiSendLoop_error_none w hsub _ _ 0
  · rw [uiOnSend_events_shape w entries hne]
    have hrne : entries.map (·.address) ≠ [] := by
      intro h
      exact hne (List.map_eq_nil.mp h)
    have hane : entries.map (·.amountWei) ≠ [] := by
      intro h
      exact hne (List.map_eq_nil.mp h)
    have hs : (findChunkSize w.estimate w.gasBudget
        (entries.map (·.address)).length).1 ≠ 0 := by
      have := Nat.le_max_left 1 (binLoop w.estimate w.gasBudget
        (doubleLoop w.estimate w.gasBudget (min (entries.map (·.address)).length 512)
          1 1 1 [] (by omega)).1
        (doubleLoop w.estimate w.gasBudget (min (entries.map (·.address)).length 512)
          1 1 1 [] (by omega)).2.1
        (doubleLoop w.estimate w.gasBudget (min (entries.map (·.address)).length 512)
          1 1 1 [] (by omega)).2.2.1
        (doubleLoop w.estimate w.gasBudget (min (entries.map (·.address)).length 512)
          1 1 1 [] (by omega)).2.2.2).1
      simp only [findChunkSize]
      omega
    rw [chunk_cons_of_ne _ _ hrne hs, chunk_cons_of_ne _ _ hane hs]
    rw [uiSendLoop, if_pos (hsub 0)]
    refine ⟨UiEvent.submitChunk 0
      ((entries.map (·.address)).take (findChunkSize w.estimate w.gasBudget
        (entries.map (·.address)).length).1)
      ((entries.map (·.amountWei)).take (findChunkSize w.estimate w.gasBudget
        (entries.map (·.address)).length).1), ?_, rfl⟩
    simp

/-- C3 (amended): duplicate canonical addresses make the scripted
driver fail the entire run before any event, with an error listing
exactly the addresses that canonicalize to the same identifier more
than once, and zero entries processed; the UI event handler however
does not fail the run: `normalized` silently drops later duplicate
occurrences (its output addresses are pairwise distinct), reports the
duplicates separately, and `onSend` still submits the kept entries. -/
theorem duplicate_address_handling (cfg : Config) (w : World) (entries : List RawEntry)
    (g : String → Option String) (pu : String → Nat → Int) (d : Option Nat)
    (rows : List CsvRow) (uw : UiWorld)
    (hdups : scriptDuplicates w.getAddress entries ≠ [])
    (hsub : ∀ i, uw.submitOk i = true) :
    runMain cfg w entries =
      ⟨[], some (ScriptError.duplicateAddresses (scriptDuplicates w.getAddress entries)),
       [], []⟩ ∧
    (∀ x, x ∈ scriptDuplicates w.getAddress entries ↔
      2 ≤ entries.countP (fun e => decide (w.getAddress e.address = some x))) ∧
    ((uiNormalized g pu d rows).1.map (·.address)).Nodup ∧
    ((uiNormalized g pu d rows).1 ≠ [] →
      (uiOnSend uw (uiNormalized g pu d rows).1).2 = none ∧
      ∃ e ∈ (uiOnSend uw (uiNormalized g pu d rows).1).1, e.isSubmit = true) := by
  refine ⟨?_, fun x => scriptDuplicates_spec w.getAddress entries x, ?_, ?_⟩
  · simp only [runMain, if_pos hdups]
  · exact uiNormalizedAux_addr_nodup g pu d rows [] [] []
      (fun a ha => absurd ha (List.not_mem_nil a)) List.nodup_nil
  · intro hne
    exact uiOnSend_proceeds uw _ hne hsub

def exCfgC3 : Config := ⟨false, none, false⟩

def exWorldC3 : World :=
  ⟨some, fun _ => true, fun _ _ => 5, Except.ok 18, 0, 0, 0, fun _ => none,
   none, fun _ => true, fun _ => true⟩

def exUiWorldC3 : UiWorld := ⟨1000, fun _ => none, 0, fun _ => true⟩

def exRowsC3 : List CsvRow := [⟨"0xC", "5"⟩, ⟨"0xC", "5"⟩]

def exEntriesC3 : List RawEntry := [⟨"0xC", "5"⟩, ⟨"0xC", "5"⟩]

/-- Counterexample to C3 as stated: on a concrete duplicated input the
UI event handler does not fail the run with a duplicate error and does
not process zero entries — `normalized` silently keeps the first
occurrence and `onSend` submits it — so the claimed script/UI parity is
false on the code. -/
theorem duplicate_address_ui_counterexample :
    (uiNormalized some (fun _ _ => 5) (some 18) exRowsC3).1 = [⟨"0xC", "5", 5⟩] ∧
    (uiNormalized some (fun _ _ => 5) (some 18) exRowsC3).2 = ["0xC"] ∧
    (uiOnSend exUiWorldC3 [⟨"0xC", "5", 5⟩]).2 = none ∧
    ∃ e ∈ (uiOnSend exUiWorldC3 [⟨"0xC", "5", 5⟩]).1, e.isSubmit = true := by
  refine ⟨by decide, by decide, ?_, ?_⟩
  · exact (uiOnSend_proceeds exUiWorldC3 [⟨"0xC", "5", 5⟩] (by decide) (fun _ => rfl)).1
  · exact (uiOnSend_proceeds exUiWorldC3 [⟨"0xC", "5", 5⟩] (by decide) (fun _ => rfl)).2

/-- Witness for the amended C3 at a concrete duplicated input. -/
theorem duplicate_address_handling_witness :
    runMain exCfgC3 exWorldC3 exEntriesC3 =
      ⟨[], some (ScriptError.duplicateAddresses
        (scriptDuplicates exWorldC3.getAddress exEntriesC3)), [], []⟩ ∧
    (∀ x, x ∈ scriptDuplicates exWorldC3.getAddress exEntriesC3 ↔
      2 ≤ exEntriesC3.countP (fun e => decide (exWorldC3.getAddress e.address = some x))) ∧
    ((uiNormalized some (fun _ _ => 5) (some 18) exRowsC3).1.map (·.address)).Nodup ∧
    ((uiNormalized some (fun _ _ => 5) (some 18) exRowsC3).1 ≠ [] →
      (uiOnSend exUiWorldC3 (uiNormalized some (fun _ _ => 5) (some 18) exRowsC3).1).2 =
        none ∧
      ∃ e ∈ (uiOnSend exUiWorldC3
        (uiNormalized some (fun _ _ => 5) (some 18) exRowsC3).1).1, e.isSubmit = true) :=
  duplicate_address_handling exCfgC3 exWorldC3 exEntriesC3 some (fun _ _ => 5)
    (some 18) exRowsC3 exUiWorldC3 (by decide) (fun _ => rfl)

end Multisend
